import Mathlib

/-!
Verification of `src/cef_cubic_symmetry/scripts/transition_probabilities.c`.

The C routine `get` receives four caller-allocated `size × size` output
matrices (`j_z`, `j_plus`, `j_minus`, `transition_probability`), the
eigenvector matrix `eigenfunctions`, the quantum numbers `j` and
`squared_j`, and the dimension `size`.  It accumulates the angular-momentum
operator matrices and the transition probabilities into the outputs and
returns the first element of a local four-element array.

The embedding below models the five matrices as total functions
`ℕ → ℕ → ℚ` packed into a state record, and each C statement as a state
update; the loops are folds over the same index lists the C loops
traverse.  The C `float` arithmetic is modelled as exact rational
arithmetic, and the library function `sqrt` is an explicit function
parameter `sq : ℚ → ℚ` (a square root of a rational is in general not
rational, so `sqrt` is kept uninterpreted; theorems that depend on a
concrete square-root value take the corresponding fact about `sq`, e.g.
`sq 1 = 1`, as a hypothesis, which the real square root satisfies).
-/

namespace TransitionProbabilities

/-- Mutable store of the C routine: the read-only eigenvector matrix and the
four output matrices, each a total function standing for a `float **`. -/
structure CState where
  eigenfunctions : ℕ → ℕ → ℚ
  j_z : ℕ → ℕ → ℚ
  j_plus : ℕ → ℕ → ℚ
  j_minus : ℕ → ℕ → ℚ
  transition_probability : ℕ → ℕ → ℚ

/-- Write value `v` into cell `(r, c)` of a matrix held as a total function
(the effect of the C assignment `m[r][c] = v`). -/
def updM (m : ℕ → ℕ → ℚ) (r c : ℕ) (v : ℚ) : ℕ → ℕ → ℚ :=
  fun a b => if a = r ∧ b = c then v else m a b

variable (j squared_j : ℚ) (sq : ℚ → ℚ) (size : ℕ)

/-- One iteration (index `row_j`) of the first inner loop, C lines 8–13:
`j_z[row][row] += pow(eigenfunctions[row_j][row], 2) * (row_j - j);`
`j_plus[row][row] += eigenfunctions[row_j+1][row] * eigenfunctions[row_j][row]
  * sqrt(squared_j - (row_j - j) * (row_j - j + 1));` -/
def diagStep (row : ℕ) (s : CState) (row_j : ℕ) : CState :=
  { s with
    j_z := updM s.j_z row row
      (s.j_z row row + s.eigenfunctions row_j row ^ 2 * ((row_j : ℚ) - j)),
    j_plus := updM s.j_plus row row
      (s.j_plus row row +
        s.eigenfunctions (row_j + 1) row * s.eigenfunctions row_j row *
          sq (squared_j - ((row_j : ℚ) - j) * ((row_j : ℚ) - j + 1))) }

/-- One iteration (index `row_j`) of the second inner loop, C lines 20–33:
accumulates `j_z[row][column]`, `j_plus[row][column]`, `j_minus[row][column]`
with `mqn_1 = row_j - j`, `column_j = row_j + 1`, `mqn_2 = column_j - j`,
`common_root = sqrt(squared_j - mqn_1 * mqn_2)`. -/
def offStep (row column : ℕ) (s : CState) (row_j : ℕ) : CState :=
  let mqn_1 : ℚ := (row_j : ℚ) - j
  let column_j : ℕ := row_j + 1
  let mqn_2 : ℚ := (column_j : ℚ) - j
  let common_root : ℚ := sq (squared_j - mqn_1 * mqn_2)
  { s with
    j_z := updM s.j_z row column
      (s.j_z row column +
        s.eigenfunctions row_j row * s.eigenfunctions row_j column * mqn_1),
    j_plus := updM s.j_plus row column
      (s.j_plus row column +
        s.eigenfunctions column_j row * s.eigenfunctions row_j column * common_root),
    j_minus := updM s.j_minus row column
      (s.j_minus row column +
        s.eigenfunctions row_j row * s.eigenfunctions column_j column * common_root) }

/-- Body of the `column` loop, C lines 16–41: the top-basis `j_z` term with
`mqn_1 = size - 1 - j`, the inner `row_j` loop, the transition-probability
formula, and the four mirror assignments into `[column][row]`. -/
def columnBody (row : ℕ) (s : CState) (column : ℕ) : CState :=
  let top : ℕ := size - 1
  let s1 : CState :=
    { s with
      j_z := updM s.j_z row column
        (s.j_z row column +
          s.eigenfunctions top row * s.eigenfunctions top column *
            ((top : ℚ) - j)) }
  let s2 : CState := (List.range (size - 1)).foldl (offStep j squared_j sq row column) s1
  let s3 : CState :=
    { s2 with
      transition_probability := updM s2.transition_probability row column
        (((2 * s2.j_z row column) ^ 2 + s2.j_plus row column ^ 2 +
            s2.j_minus row column ^ 2) / 3) }
  { s3 with
    j_z := updM s3.j_z column row (s3.j_z row column),
    j_plus := updM s3.j_plus column row (s3.j_minus row column),
    j_minus := updM s3.j_minus column row (s3.j_plus row column),
    transition_probability :=
      updM s3.transition_probability column row (s3.transition_probability row column) }

/-- Body of the outer `row` loop, C lines 6–42: the top-basis diagonal `j_z`
term (line 7), the first inner loop (lines 8–13), the assignment
`j_minus[row][row] = j_plus[row][row]` (line 15), then the `column` loop
running over `row + 1 ≤ column < size`. -/
def rowBody (s : CState) (row : ℕ) : CState :=
  let top : ℕ := size - 1
  let s1 : CState :=
    { s with
      j_z := updM s.j_z row row
        (s.j_z row row + s.eigenfunctions top row ^ 2 * ((top : ℚ) - j)) }
  let s2 : CState := (List.range (size - 1)).foldl (diagStep j squared_j sq row) s1
  let s3 : CState := { s2 with j_minus := updM s2.j_minus row row (s2.j_plus row row) }
  (List.range' (row + 1) (size - (row + 1))).foldl (columnBody j squared_j sq size row) s3

/-- Final state of the four output matrices after the outer `row` loop of the
C function `get` has run over `0 ≤ row < size`. -/
def getState (s : CState) : CState :=
  (List.range size).foldl (rowBody j squared_j sq size) s

/-- The C function `get`: runs the loops and then models
`float result[4] = {**j_z, **j_plus, **j_minus, **transition_probability};
return *result;` — the returned scalar is the head of that four-element
list. -/
def get (s : CState) : CState × ℚ :=
  let s' := getState j squared_j sq size s
  let result : List ℚ :=
    [s'.j_z 0 0, s'.j_plus 0 0, s'.j_minus 0 0, s'.transition_probability 0 0]
  (s', result.headD 0)

/-- Caller-side initial state: the eigenvector matrix `ef` together with the
four output matrices zero-initialized, as the contract requires. -/
def initState (ef : ℕ → ℕ → ℚ) : CState :=
  { eigenfunctions := ef
    j_z := fun _ _ => 0
    j_plus := fun _ _ => 0
    j_minus := fun _ _ => 0
    transition_probability := fun _ _ => 0 }

/-- The identity eigenvector matrix (eigenstates equal to basis states). -/
def idMatrix : ℕ → ℕ → ℚ :=
  fun a b => if a = b then 1 else 0

/-- Negation of the single eigenvector column `k` of an eigenvector matrix:
`ef[i][k]` becomes `-ef[i][k]`, every other column unchanged. -/
def flipCol (ef : ℕ → ℕ → ℚ) (k : ℕ) : ℕ → ℕ → ℚ :=
  fun i r => if r = k then -ef i r else ef i r

/-- Total accumulated into `j_z[row][row]` by the diagonal pass of row `row`:
the explicit top-basis term plus the first inner loop's terms. -/
def diagJzSum (ef : ℕ → ℕ → ℚ) (row : ℕ) : ℚ :=
  ef (size - 1) row ^ 2 * (((size - 1 : ℕ) : ℚ) - j) +
    ∑ i ∈ Finset.range (size - 1), ef i row ^ 2 * ((i : ℚ) - j)

/-- Total accumulated into `j_plus[row][row]` by the first inner loop. -/
def diagJpSum (ef : ℕ → ℕ → ℚ) (row : ℕ) : ℚ :=
  ∑ i ∈ Finset.range (size - 1),
    ef (i + 1) row * ef i row * sq (squared_j - ((i : ℚ) - j) * ((i : ℚ) - j + 1))

/-- Total accumulated into `j_z[row][column]` by the off-diagonal pass:
the explicit top-basis term plus the second inner loop's `j_z` terms. -/
def offJzSum (ef : ℕ → ℕ → ℚ) (r c : ℕ) : ℚ :=
  ef (size - 1) r * ef (size - 1) c * (((size - 1 : ℕ) : ℚ) - j) +
    ∑ i ∈ Finset.range (size - 1), ef i r * ef i c * ((i : ℚ) - j)

/-- Total accumulated into `j_plus[row][column]` by the second inner loop. -/
def offJpSum (ef : ℕ → ℕ → ℚ) (r c : ℕ) : ℚ :=
  ∑ i ∈ Finset.range (size - 1),
    ef (i + 1) r * ef i c * sq (squared_j - ((i : ℚ) - j) * (((i + 1 : ℕ) : ℚ) - j))

/-- Total accumulated into `j_minus[row][column]` by the second inner loop. -/
def offJmSum (ef : ℕ → ℕ → ℚ) (r c : ℕ) : ℚ :=
  ∑ i ∈ Finset.range (size - 1),
    ef i r * ef (i + 1) c * sq (squared_j - ((i : ℚ) - j) * (((i + 1 : ℕ) : ℚ) - j))

/-- Value the routine stores into `transition_probability[r][c]` (for
`r < c`), expressed from the initial state: the helper for the final-state
characterization. -/
def tpVal (s : CState) (r c : ℕ) : ℚ :=
  ((2 * (s.j_z r c + offJzSum j size s.eigenfunctions r c)) ^ 2 +
      (s.j_plus r c + offJpSum j squared_j sq size s.eigenfunctions r c) ^ 2 +
      (s.j_minus r c + offJmSum j squared_j sq size s.eigenfunctions r c) ^ 2) / 3

/-! Basic lemmas about single-cell writes. -/

theorem updM_same (m : ℕ → ℕ → ℚ) (r c : ℕ) (v : ℚ) : updM m r c v r c = v := by
  simp [updM]

theorem updM_of_ne (m : ℕ → ℕ → ℚ) (r c : ℕ) (v : ℚ) (a b : ℕ)
    (h : ¬(a = r ∧ b = c)) : updM m r c v a b = m a b := by
  simp [updM, h]

theorem updM_self (m : ℕ → ℕ → ℚ) (r c : ℕ) : updM m r c (m r c) = m := by
  funext a b
  by_cases h : a = r ∧ b = c
  · obtain ⟨h1, h2⟩ := h; subst h1; subst h2; simp [updM]
  · simp [updM, h]

theorem updM_updM (m : ℕ → ℕ → ℚ) (r c : ℕ) (v w : ℚ) :
    updM (updM m r c v) r c w = updM m r c w := by
  funext a b
  by_cases h : a = r ∧ b = c <;> simp [updM, h]

/-! Characterization of the first inner loop (the diagonal pass of one row). -/

theorem diagLoop_eigenfunctions (row n : ℕ) (s : CState) :
    ((List.range n).foldl (diagStep j squared_j sq row) s).eigenfunctions =
      s.eigenfunctions := by
  induction n with
  | zero => rfl
  | succ n ih =>
    rw [List.range_succ, List.foldl_append]
    simpa [diagStep] using ih

theorem diagLoop_j_minus (row n : ℕ) (s : CState) :
    ((List.range n).foldl (diagStep j squared_j sq row) s).j_minus = s.j_minus := by
  induction n with
  | zero => rfl
  | succ n ih =>
    rw [List.range_succ, List.foldl_append]
    simpa [diagStep] using ih

theorem diagLoop_tp (row n : ℕ) (s : CState) :
    ((List.range n).foldl (diagStep j squared_j sq row) s).transition_probability =
      s.transition_probability := by
  induction n with
  | zero => rfl
  | succ n ih =>
    rw [List.range_succ, List.foldl_append]
    simpa [diagStep] using ih

theorem diagLoop_j_z (row n : ℕ) (s : CState) :
    ((List.range n).foldl (diagStep j squared_j sq row) s).j_z =
      updM s.j_z row row
        (s.j_z row row +
          ∑ i ∈ Finset.range n, s.eigenfunctions i row ^ 2 * ((i : ℚ) - j)) := by
  induction n with
  | zero => simp [updM_self]
  | succ n ih =>
    rw [List.range_succ, List.foldl_append]
    simp only [List.foldl_cons, List.foldl_nil, diagStep]
    rw [diagLoop_eigenfunctions, ih, updM_updM, updM_same,
      Finset.sum_range_succ, add_assoc]

theorem diagLoop_j_plus (row n : ℕ) (s : CState) :
    ((List.range n).foldl (diagStep j squared_j sq row) s).j_plus =
      updM s.j_plus row row
        (s.j_plus row row +
          ∑ i ∈ Finset.range n,
            s.eigenfunctions (i + 1) row * s.eigenfunctions i row *
              sq (squared_j - ((i : ℚ) - j) * ((i : ℚ) - j + 1))) := by
  induction n with
  | zero => simp [updM_self]
  | succ n ih =>
    rw [List.range_succ, List.foldl_append]
    simp only [List.foldl_cons, List.foldl_nil, diagStep]
    rw [diagLoop_eigenfunctions, ih, updM_updM, updM_same,
      Finset.sum_range_succ, add_assoc]

/-! Characterization of the second inner loop (the off-diagonal accumulation
for one `(row, column)` pair). -/

theorem offLoop_eigenfunctions (row column n : ℕ) (s : CState) :
    ((List.range n).foldl (offStep j squared_j sq row column) s).eigenfunctions =
      s.eigenfunctions := by
  induction n with
  | zero => rfl
  | succ n ih =>
    rw [List.range_succ, List.foldl_append]
    simpa [offStep] using ih

theorem offLoop_tp (row column n : ℕ) (s : CState) :
    ((List.range n).foldl (offStep j squared_j sq row column) s).transition_probability =
      s.transition_probability := by
  induction n with
  | zero => rfl
  | succ n ih =>
    rw [List.range_succ, List.foldl_append]
    simpa [offStep] using ih

theorem offLoop_j_z (row column n : ℕ) (s : CState) :
    ((List.range n).foldl (offStep j squared_j sq row column) s).j_z =
      updM s.j_z row column
        (s.j_z row column +
          ∑ i ∈ Finset.range n,
            s.eigenfunctions i row * s.eigenfunctions i column * ((i : ℚ) - j)) := by
  induction n with
  | zero => simp [updM_self]
  | succ n ih =>
    rw [List.range_succ, List.foldl_append]
    simp only [List.foldl_cons, List.foldl_nil, offStep]
    rw [offLoop_eigenfunctions, ih, updM_updM, updM_same,
      Finset.sum_range_succ, add_assoc]

theorem offLoop_j_plus (row column n : ℕ) (s : CState) :
    ((List.range n).foldl (offStep j squared_j sq row column) s).j_plus =
      updM s.j_plus row column
        (s.j_plus row column +
          ∑ i ∈ Finset.range n,
            s.eigenfunctions (i + 1) row * s.eigenfunctions i column *
              sq (squared_j - ((i : ℚ) - j) * (((i + 1 : ℕ) : ℚ) - j))) := by
  induction n with
  | zero => simp [updM_self]
  | succ n ih =>
    rw [List.range_succ, List.foldl_append]
    simp only [List.foldl_cons, List.foldl_nil, offStep]
    rw [offLoop_eigenfunctions, ih, updM_updM, updM_same,
      Finset.sum_range_succ, add_assoc]

theorem offLoop_j_minus (row column n : ℕ) (s : CState) :
    ((List.range n).foldl (offStep j squared_j sq row column) s).j_minus =
      updM s.j_minus row column
        (s.j_minus row column +
          ∑ i ∈ Finset.range n,
            s.eigenfunctions i row * s.eigenfunctions (i + 1) column *
              sq (squared_j - ((i : ℚ) - j) * (((i + 1 : ℕ) : ℚ) - j))) := by
  induction n with
  | zero => simp [updM_self]
  | succ n ih =>
    rw [List.range_succ, List.foldl_append]
    simp only [List.foldl_cons, List.foldl_nil, offStep]
    rw [offLoop_eigenfunctions, ih, updM_updM, updM_same,
      Finset.sum_range_succ, add_assoc]

/-! Characterization of one iteration of the `column` loop. -/

theorem columnBody_eigenfunctions (row : ℕ) (s : CState) (column : ℕ) :
    (columnBody j squared_j sq size row s column).eigenfunctions =
      s.eigenfunctions := by
  simp only [columnBody]
  rw [offLoop_eigenfunctions]

theorem columnBody_j_z (row : ℕ) (s : CState) (column : ℕ) :
    (columnBody j squared_j sq size row s column).j_z =
      updM (updM s.j_z row column
          (s.j_z row column + offJzSum j size s.eigenfunctions row column))
        column row
        (s.j_z row column + offJzSum j size s.eigenfunctions row column) := by
  simp only [columnBody, offJzSum]
  simp only [offLoop_j_z, offLoop_eigenfunctions, updM_updM, updM_same]
  simp only [add_assoc]

theorem columnBody_j_plus (row : ℕ) (s : CState) (column : ℕ) :
    (columnBody j squared_j sq size row s column).j_plus =
      updM (updM s.j_plus row column
          (s.j_plus row column + offJpSum j squared_j sq size s.eigenfunctions row column))
        column row
        (s.j_minus row column + offJmSum j squared_j sq size s.eigenfunctions row column) := by
  simp only [columnBody, offJpSum, offJmSum]
  simp only [offLoop_j_plus, offLoop_j_minus, offLoop_eigenfunctions, updM_updM, updM_same]

theorem columnBody_j_minus (row : ℕ) (s : CState) (column : ℕ) :
    (columnBody j squared_j sq size row s column).j_minus =
      updM (updM s.j_minus row column
          (s.j_minus row column + offJmSum j squared_j sq size s.eigenfunctions row column))
        column row
        (s.j_plus row column + offJpSum j squared_j sq size s.eigenfunctions row column) := by
  simp only [columnBody, offJpSum, offJmSum]
  simp only [offLoop_j_plus, offLoop_j_minus, offLoop_eigenfunctions, updM_updM, updM_same]

theorem columnBody_tp (row : ℕ) (s : CState) (column : ℕ) :
    (columnBody j squared_j sq size row s column).transition_probability =
      updM (updM s.transition_probability row column
          (tpVal j squared_j sq size s row column))
        column row (tpVal j squared_j sq size s row column) := by
  simp only [columnBody, tpVal, offJzSum, offJpSum, offJmSum]
  simp only [offLoop_tp, offLoop_j_z, offLoop_j_plus, offLoop_j_minus,
    offLoop_eigenfunctions, updM_updM, updM_same]
  simp only [add_assoc]

theorem updM2_read (m : ℕ → ℕ → ℚ) (r c : ℕ) (v w : ℚ) (a b : ℕ) :
    updM (updM m r c v) c r w a b =
      if a = c ∧ b = r then w else if a = r ∧ b = c then v else m a b := by
  simp only [updM]

/-! Characterization of the whole `column` loop of one row: it touches exactly
the cells `(row, c)` and `(c, row)` for `row < t ≤ c < t + n`. -/

theorem colLoop_eigenfunctions (row t n : ℕ) (s : CState) :
    ((List.range' t n).foldl (columnBody j squared_j sq size row) s).eigenfunctions =
      s.eigenfunctions := by
  induction n generalizing t s with
  | zero => rfl
  | succ n ih =>
    rw [List.range'_succ, List.foldl_cons, ih, columnBody_eigenfunctions]

theorem colLoop_j_z (row t n : ℕ) (s : CState) (hrt : row < t) (a b : ℕ) :
    ((List.range' t n).foldl (columnBody j squared_j sq size row) s).j_z a b =
      if a = row ∧ t ≤ b ∧ b < t + n then
        s.j_z row b + offJzSum j size s.eigenfunctions row b
      else if b = row ∧ t ≤ a ∧ a < t + n then
        s.j_z row a + offJzSum j size s.eigenfunctions row a
      else s.j_z a b := by
  induction n generalizing t s with
  | zero =>
    simp only [List.range'_zero, List.foldl_nil]
    split_ifs with h1 h2
    · exfalso; omega
    · exfalso; omega
    · rfl
  | succ n ih =>
    rw [List.range'_succ, List.foldl_cons, ih (t + 1) _ (by omega),
      columnBody_eigenfunctions, columnBody_j_z]
    simp only [updM2_read]
    split_ifs <;> first | rfl | (exfalso; omega) | simp_all

theorem colLoop_j_plus (row t n : ℕ) (s : CState) (hrt : row < t) (a b : ℕ) :
    ((List.range' t n).foldl (columnBody j squared_j sq size row) s).j_plus a b =
      if a = row ∧ t ≤ b ∧ b < t + n then
        s.j_plus row b + offJpSum j squared_j sq size s.eigenfunctions row b
      else if b = row ∧ t ≤ a ∧ a < t + n then
        s.j_minus row a + offJmSum j squared_j sq size s.eigenfunctions row a
      else s.j_plus a b := by
  induction n generalizing t s with
  | zero =>
    simp only [List.range'_zero, List.foldl_nil]
    split_ifs with h1 h2
    · exfalso; omega
    · exfalso; omega
    · rfl
  | succ n ih =>
    rw [List.range'_succ, List.foldl_cons, ih (t + 1) _ (by omega),
      columnBody_eigenfunctions, columnBody_j_plus, columnBody_j_minus]
    simp only [updM2_read]
    split_ifs <;> first | rfl | (exfalso; omega) | simp_all

theorem colLoop_j_minus (row t n : ℕ) (s : CState) (hrt : row < t) (a b : ℕ) :
    ((List.range' t n).foldl (columnBody j squared_j sq size row) s).j_minus a b =
      if a = row ∧ t ≤ b ∧ b < t + n then
        s.j_minus row b + offJmSum j squared_j sq size s.eigenfunctions row b
      else if b = row ∧ t ≤ a ∧ a < t + n then
        s.j_plus row a + offJpSum j squared_j sq size s.eigenfunctions row a
      else s.j_minus a b := by
  induction n generalizing t s with
  | zero =>
    simp only [List.range'_zero, List.foldl_nil]
    split_ifs with h1 h2
    · exfalso; omega
    · exfalso; omega
    · rfl
  | succ n ih =>
    rw [List.range'_succ, List.foldl_cons, ih (t + 1) _ (by omega),
      columnBody_eigenfunctions, columnBody_j_plus, columnBody_j_minus]
    simp only [updM2_read]
    split_ifs <;> first | rfl | (exfalso; omega) | simp_all

theorem colLoop_tp (row t n : ℕ) (s : CState) (hrt : row < t) (a b : ℕ) :
    ((List.range' t n).foldl (columnBody j squared_j sq size row) s).transition_probability a b =
      if a = row ∧ t ≤ b ∧ b < t + n then tpVal j squared_j sq size s row b
      else if b = row ∧ t ≤ a ∧ a < t + n then tpVal j squared_j sq size s row a
      else s.transition_probability a b := by
  induction n generalizing t s with
  | zero =>
    simp only [List.range'_zero, List.foldl_nil]
    split_ifs with h1 h2
    · exfalso; omega
    · exfalso; omega
    · rfl
  | succ n ih =>
    rw [List.range'_succ, List.foldl_cons, ih (t + 1) _ (by omega)]
    simp only [tpVal]
    rw [columnBody_eigenfunctions, columnBody_j_z, columnBody_j_plus,
      columnBody_j_minus, columnBody_tp]
    simp only [updM2_read]
    split_ifs <;> first | rfl | (exfalso; omega) | simp_all [tpVal]

/-! Characterization of one iteration of the outer `row` loop: for
`row < size` it touches the diagonal cell `(row, row)` and the cells
`(row, c)`, `(c, row)` for `row < c < size`. -/

theorem rowBody_eigenfunctions (s : CState) (row : ℕ) :
    (rowBody j squared_j sq size s row).eigenfunctions = s.eigenfunctions := by
  simp only [rowBody]
  simp only [colLoop_eigenfunctions, diagLoop_eigenfunctions]

theorem rowBody_j_z (s : CState) (row : ℕ) (hrow : row < size) (a b : ℕ) :
    (rowBody j squared_j sq size s row).j_z a b =
      if a = row ∧ b = row then
        s.j_z row row + diagJzSum j size s.eigenfunctions row
      else if a = row ∧ row < b ∧ b < size then
        s.j_z row b + offJzSum j size s.eigenfunctions row b
      else if b = row ∧ row < a ∧ a < size then
        s.j_z row a + offJzSum j size s.eigenfunctions row a
      else s.j_z a b := by
  simp only [rowBody]
  rw [colLoop_j_z j squared_j sq size row (row + 1) (size - (row + 1)) _ (Nat.lt_succ_self row)]
  simp only [diagLoop_j_z, diagLoop_eigenfunctions, updM_updM, updM_same]
  simp only [updM, diagJzSum, offJzSum]
  simp only [add_assoc]
  split_ifs <;> first | rfl | (exfalso; omega) | simp_all

theorem rowBody_j_plus (s : CState) (row : ℕ) (hrow : row < size) (a b : ℕ) :
    (rowBody j squared_j sq size s row).j_plus a b =
      if a = row ∧ b = row then
        s.j_plus row row + diagJpSum j squared_j sq size s.eigenfunctions row
      else if a = row ∧ row < b ∧ b < size then
        s.j_plus row b + offJpSum j squared_j sq size s.eigenfunctions row b
      else if b = row ∧ row < a ∧ a < size then
        s.j_minus row a + offJmSum j squared_j sq size s.eigenfunctions row a
      else s.j_plus a b := by
  simp only [rowBody]
  rw [colLoop_j_plus j squared_j sq size row (row + 1) (size - (row + 1)) _ (Nat.lt_succ_self row)]
  simp only [diagLoop_j_plus, diagLoop_j_minus, diagLoop_eigenfunctions,
    updM_updM, updM_same]
  simp only [updM, diagJpSum, offJpSum, offJmSum]
  split_ifs <;> first | rfl | (exfalso; omega) | simp_all

theorem rowBody_j_minus (s : CState) (row : ℕ) (hrow : row < size) (a b : ℕ) :
    (rowBody j squared_j sq size s row).j_minus a b =
      if a = row ∧ b = row then
        s.j_plus row row + diagJpSum j squared_j sq size s.eigenfunctions row
      else if a = row ∧ row < b ∧ b < size then
        s.j_minus row b + offJmSum j squared_j sq size s.eigenfunctions row b
      else if b = row ∧ row < a ∧ a < size then
        s.j_plus row a + offJpSum j squared_j sq size s.eigenfunctions row a
      else s.j_minus a b := by
  simp only [rowBody]
  rw [colLoop_j_minus j squared_j sq size row (row + 1) (size - (row + 1)) _ (Nat.lt_succ_self row)]
  simp only [diagLoop_j_plus, diagLoop_j_minus, diagLoop_eigenfunctions,
    updM_updM, updM_same]
  simp only [updM, diagJpSum, offJpSum, offJmSum]
  split_ifs <;> first | rfl | (exfalso; omega) | simp_all

theorem rowBody_tp (s : CState) (row : ℕ) (hrow : row < size) (a b : ℕ) :
    (rowBody j squared_j sq size s row).transition_probability a b =
      if a = row ∧ row < b ∧ b < size then tpVal j squared_j sq size s row b
      else if b = row ∧ row < a ∧ a < size then tpVal j squared_j sq size s row a
      else s.transition_probability a b := by
  simp only [rowBody]
  rw [colLoop_tp j squared_j sq size row (row + 1) (size - (row + 1)) _ (Nat.lt_succ_self row)]
  simp only [tpVal, diagLoop_j_z, diagLoop_j_plus, diagLoop_j_minus,
    diagLoop_tp, diagLoop_eigenfunctions, updM_updM, updM_same]
  simp only [updM, offJzSum, offJpSum, offJmSum]
  split_ifs <;> first | rfl | (exfalso; omega) | simp_all

/-! Characterization of the outer `row` loop: closed form of every cell of
the four output matrices after the first `n ≤ size` rows have been
processed.  `getState` is the case `n = size`. -/

theorem getLoop_eigenfunctions (n : ℕ) (s : CState) :
    ((List.range n).foldl (rowBody j squared_j sq size) s).eigenfunctions =
      s.eigenfunctions := by
  induction n with
  | zero => rfl
  | succ n ih =>
    rw [List.range_succ, List.foldl_append, List.foldl_cons, List.foldl_nil,
      rowBody_eigenfunctions, ih]

theorem getLoop_j_z (n : ℕ) (s : CState) :
    n ≤ size → ∀ a b,
      ((List.range n).foldl (rowBody j squared_j sq size) s).j_z a b =
        if a = b ∧ a < n then
          s.j_z a a + diagJzSum j size s.eigenfunctions a
        else if a < b ∧ a < n ∧ b < size then
          s.j_z a b + offJzSum j size s.eigenfunctions a b
        else if b < a ∧ b < n ∧ a < size then
          s.j_z b a + offJzSum j size s.eigenfunctions b a
        else s.j_z a b := by
  induction n with
  | zero =>
    intro _ a b
    simp only [List.range_zero, List.foldl_nil]
    split_ifs <;> first | rfl | (exfalso; omega)
  | succ n ih =>
    intro hn a b
    rw [List.range_succ, List.foldl_append, List.foldl_cons, List.foldl_nil,
      rowBody_j_z j squared_j sq size _ n (by omega) a b]
    simp only [ih (by omega), getLoop_eigenfunctions]
    split_ifs <;> first | rfl | (exfalso; omega) | simp_all

theorem getLoop_j_pm (n : ℕ) (s : CState) :
    n ≤ size → ∀ a b,
      (((List.range n).foldl (rowBody j squared_j sq size) s).j_plus a b =
        if a = b ∧ a < n then
          s.j_plus a a + diagJpSum j squared_j sq size s.eigenfunctions a
        else if a < b ∧ a < n ∧ b < size then
          s.j_plus a b + offJpSum j squared_j sq size s.eigenfunctions a b
        else if b < a ∧ b < n ∧ a < size then
          s.j_minus b a + offJmSum j squared_j sq size s.eigenfunctions b a
        else s.j_plus a b) ∧
      (((List.range n).foldl (rowBody j squared_j sq size) s).j_minus a b =
        if a = b ∧ a < n then
          s.j_plus a a + diagJpSum j squared_j sq size s.eigenfunctions a
        else if a < b ∧ a < n ∧ b < size then
          s.j_minus a b + offJmSum j squared_j sq size s.eigenfunctions a b
        else if b < a ∧ b < n ∧ a < size then
          s.j_plus b a + offJpSum j squared_j sq size s.eigenfunctions b a
        else s.j_minus a b) := by
  induction n with
  | zero =>
    intro _ a b
    simp only [List.range_zero, List.foldl_nil]
    constructor <;> (split_ifs <;> first | rfl | (exfalso; omega))
  | succ n ih =>
    intro hn a b
    have ihp := fun a b => (ih (by omega) a b).1
    have ihm := fun a b => (ih (by omega) a b).2
    constructor
    · rw [List.range_succ, List.foldl_append, List.foldl_cons, List.foldl_nil,
        rowBody_j_plus j squared_j sq size _ n (by omega) a b]
      simp only [ihp, ihm, getLoop_eigenfunctions]
      clear ihp ihm ih
      split_ifs <;> first | rfl | (exfalso; omega) | simp_all
    · rw [List.range_succ, List.foldl_append, List.foldl_cons, List.foldl_nil,
        rowBody_j_minus j squared_j sq size _ n (by omega) a b]
      simp only [ihp, ihm, getLoop_eigenfunctions]
      clear ihp ihm ih
      split_ifs <;> first | rfl | (exfalso; omega) | simp_all

theorem getLoop_j_plus (n : ℕ) (s : CState) (hn : n ≤ size) (a b : ℕ) :
    ((List.range n).foldl (rowBody j squared_j sq size) s).j_plus a b =
      if a = b ∧ a < n then
        s.j_plus a a + diagJpSum j squared_j sq size s.eigenfunctions a
      else if a < b ∧ a < n ∧ b < size then
        s.j_plus a b + offJpSum j squared_j sq size s.eigenfunctions a b
      else if b < a ∧ b < n ∧ a < size then
        s.j_minus b a + offJmSum j squared_j sq size s.eigenfunctions b a
      else s.j_plus a b :=
  (getLoop_j_pm j squared_j sq size n s hn a b).1

theorem getLoop_j_minus (n : ℕ) (s : CState) (hn : n ≤ size) (a b : ℕ) :
    ((List.range n).foldl (rowBody j squared_j sq size) s).j_minus a b =
      if a = b ∧ a < n then
        s.j_plus a a + diagJpSum j squared_j sq size s.eigenfunctions a
      else if a < b ∧ a < n ∧ b < size then
        s.j_minus a b + offJmSum j squared_j sq size s.eigenfunctions a b
      else if b < a ∧ b < n ∧ a < size then
        s.j_plus b a + offJpSum j squared_j sq size s.eigenfunctions b a
      else s.j_minus a b :=
  (getLoop_j_pm j squared_j sq size n s hn a b).2

theorem getLoop_tp (n : ℕ) (s : CState) :
    n ≤ size → ∀ a b,
      ((List.range n).foldl (rowBody j squared_j sq size) s).transition_probability a b =
        if a < b ∧ a < n ∧ b < size then tpVal j squared_j sq size s a b
        else if b < a ∧ b < n ∧ a < size then tpVal j squared_j sq size s b a
        else s.transition_probability a b := by
  induction n with
  | zero =>
    intro _ a b
    simp only [List.range_zero, List.foldl_nil]
    split_ifs <;> first | rfl | (exfalso; omega)
  | succ n ih =>
    intro hn a b
    rw [List.range_succ, List.foldl_append, List.foldl_cons, List.foldl_nil,
      rowBody_tp j squared_j sq size _ n (by omega) a b]
    simp only [tpVal, ih (by omega), getLoop_eigenfunctions,
      getLoop_j_z j squared_j sq size n s (by omega),
      getLoop_j_plus j squared_j sq size n s (by omega),
      getLoop_j_minus j squared_j sq size n s (by omega)]
    split_ifs <;> first | rfl | (exfalso; omega) | simp_all

/-! Closed form of every cell of the final state of the routine. -/

theorem getState_eigenfunctions (s : CState) :
    (getState j squared_j sq size s).eigenfunctions = s.eigenfunctions := by
  simp only [getState]
  rw [getLoop_eigenfunctions]

theorem getState_j_z (s : CState) (a b : ℕ) :
    (getState j squared_j sq size s).j_z a b =
      if a = b ∧ a < size then
        s.j_z a a + diagJzSum j size s.eigenfunctions a
      else if a < b ∧ b < size then
        s.j_z a b + offJzSum j size s.eigenfunctions a b
      else if b < a ∧ a < size then
        s.j_z b a + offJzSum j size s.eigenfunctions b a
      else s.j_z a b := by
  simp only [getState]
  rw [getLoop_j_z j squared_j sq size size s le_rfl a b]
  split_ifs <;> first | rfl | (exfalso; omega)

theorem getState_j_plus (s : CState) (a b : ℕ) :
    (getState j squared_j sq size s).j_plus a b =
      if a = b ∧ a < size then
        s.j_plus a a + diagJpSum j squared_j sq size s.eigenfunctions a
      else if a < b ∧ b < size then
        s.j_plus a b + offJpSum j squared_j sq size s.eigenfunctions a b
      else if b < a ∧ a < size then
        s.j_minus b a + offJmSum j squared_j sq size s.eigenfunctions b a
      else s.j_plus a b := by
  simp only [getState]
  rw [getLoop_j_plus j squared_j sq size size s le_rfl a b]
  split_ifs <;> first | rfl | (exfalso; omega)

theorem getState_j_minus (s : CState) (a b : ℕ) :
    (getState j squared_j sq size s).j_minus a b =
      if a = b ∧ a < size then
        s.j_plus a a + diagJpSum j squared_j sq size s.eigenfunctions a
      else if a < b ∧ b < size then
        s.j_minus a b + offJmSum j squared_j sq size s.eigenfunctions a b
      else if b < a ∧ a < size then
        s.j_plus b a + offJpSum j squared_j sq size s.eigenfunctions b a
      else s.j_minus a b := by
  simp only [getState]
  rw [getLoop_j_minus j squared_j sq size size s le_rfl a b]
  split_ifs <;> first | rfl | (exfalso; omega)

theorem getState_tp (s : CState) (a b : ℕ) :
    (getState j squared_j sq size s).transition_probability a b =
      if a < b ∧ b < size then tpVal j squared_j sq size s a b
      else if b < a ∧ a < size then tpVal j squared_j sq size s b a
      else s.transition_probability a b := by
  simp only [getState]
  rw [getLoop_tp j squared_j sq size size s le_rfl a b]
  split_ifs <;> first | rfl | (exfalso; omega)

/-! Claim theorems. -/

/-- C1: for every input satisfying the preconditions (`size ≥ 1`,
`j = (size − 1)/2`, all four output matrices zero-initialized), after the
call `j_z` and `transition_probability` are symmetric matrices and
`j_minus[c][r] = j_plus[r][c]` for every `r`, `c`, the diagonal included. -/
theorem claim_C1 (j squared_j : ℚ) (sq : ℚ → ℚ) (size : ℕ) (ef : ℕ → ℕ → ℚ)
    (hsize : 1 ≤ size) (hj : j = ((size : ℚ) - 1) / 2) (r c : ℕ) :
    (getState j squared_j sq size (initState ef)).j_z r c =
        (getState j squared_j sq size (initState ef)).j_z c r ∧
      (getState j squared_j sq size (initState ef)).transition_probability r c =
        (getState j squared_j sq size (initState ef)).transition_probability c r ∧
      (getState j squared_j sq size (initState ef)).j_minus c r =
        (getState j squared_j sq size (initState ef)).j_plus r c := by
  refine ⟨?_, ?_, ?_⟩ <;>
    simp only [getState_j_z, getState_j_plus, getState_j_minus, getState_tp,
      initState] <;>
    split_ifs <;> first | rfl | (exfalso; omega) | simp_all

/-- C1 witness: the symmetry theorem applied at the concrete input
`size = 2`, `j = 1/2`, identity eigenfunctions. -/
theorem claim_C1_witness :
    (1 ≤ 2 ∧ (1 / 2 : ℚ) = (((2 : ℕ) : ℚ) - 1) / 2) ∧
      (getState (1 / 2 : ℚ) (3 / 4) (fun x => x) 2 (initState idMatrix)).j_z 0 1 =
        (getState (1 / 2 : ℚ) (3 / 4) (fun x => x) 2 (initState idMatrix)).j_z 1 0 :=
  ⟨⟨by norm_num, by norm_num⟩,
    (claim_C1 (1 / 2) (3 / 4) (fun x => x) 2 idMatrix (by norm_num) (by norm_num)
      0 1).1⟩

/-- C2: for every pair `r < c` of in-range eigenstate indices, the final
`transition_probability[r][c]` equals
`((2·j_z[r][c])² + j_plus[r][c]² + j_minus[r][c]²) / 3` in terms of the
finalized entries, and `transition_probability[c][r]` mirrors it. -/
theorem claim_C2 (j squared_j : ℚ) (sq : ℚ → ℚ) (size : ℕ) (s : CState)
    (r c : ℕ) (hrc : r < c) (hc : c < size) :
    (getState j squared_j sq size s).transition_probability r c =
        ((2 * (getState j squared_j sq size s).j_z r c) ^ 2 +
            (getState j squared_j sq size s).j_plus r c ^ 2 +
            (getState j squared_j sq size s).j_minus r c ^ 2) / 3 ∧
      (getState j squared_j sq size s).transition_probability c r =
        (getState j squared_j sq size s).transition_probability r c := by
  constructor <;>
    simp only [getState_j_z, getState_j_plus, getState_j_minus, getState_tp,
      tpVal] <;>
    split_ifs <;> first | rfl | (exfalso; omega)

/-- C2 witness: the formula at `r = 0`, `c = 1` for `size = 2` with identity
eigenfunctions. -/
theorem claim_C2_witness :
    ((0 : ℕ) < 1 ∧ (1 : ℕ) < 2) ∧
      (getState (1 / 2 : ℚ) (3 / 4) (fun x => x) 2
          (initState idMatrix)).transition_probability 0 1 =
        ((2 * (getState (1 / 2 : ℚ) (3 / 4) (fun x => x) 2
              (initState idMatrix)).j_z 0 1) ^ 2 +
            (getState (1 / 2 : ℚ) (3 / 4) (fun x => x) 2
              (initState idMatrix)).j_plus 0 1 ^ 2 +
            (getState (1 / 2 : ℚ) (3 / 4) (fun x => x) 2
              (initState idMatrix)).j_minus 0 1 ^ 2) / 3 :=
  ⟨⟨by decide, by decide⟩,
    (claim_C2 (1 / 2) (3 / 4) (fun x => x) 2 (initState idMatrix) 0 1
      (by decide) (by decide)).1⟩

/-- C7: the routine never writes a diagonal `transition_probability` cell
(the final value equals the initial one for every initial state), and with
zero-initialized outputs every diagonal entry is exactly zero on return. -/
theorem claim_C7 (j squared_j : ℚ) (sq : ℚ → ℚ) (size : ℕ) (s : CState)
    (ef : ℕ → ℕ → ℚ) (r : ℕ) :
    (getState j squared_j sq size s).transition_probability r r =
        s.transition_probability r r ∧
      (getState j squared_j sq size (initState ef)).transition_probability r r
        = 0 := by
  constructor <;>
    (rw [getState_tp]; split_ifs <;>
      first | rfl | (exfalso; omega) | simp [initState])

/-- C8: accumulation semantics — for every initial contents of the output
matrices, the final diagonal and upper-triangle entries of `j_z` and
`j_plus` and the final upper-triangle entries of `j_minus` equal their
initial values plus what a run from zero-initialized outputs computes. -/
theorem claim_C8 (j squared_j : ℚ) (sq : ℚ → ℚ) (size : ℕ) (s : CState) :
    (∀ r, r < size →
      (getState j squared_j sq size s).j_z r r =
          s.j_z r r +
            (getState j squared_j sq size
              (initState s.eigenfunctions)).j_z r r ∧
        (getState j squared_j sq size s).j_plus r r =
          s.j_plus r r +
            (getState j squared_j sq size
              (initState s.eigenfunctions)).j_plus r r) ∧
    ∀ r c, r < c → c < size →
      (getState j squared_j sq size s).j_z r c =
          s.j_z r c +
            (getState j squared_j sq size
              (initState s.eigenfunctions)).j_z r c ∧
        (getState j squared_j sq size s).j_plus r c =
          s.j_plus r c +
            (getState j squared_j sq size
              (initState s.eigenfunctions)).j_plus r c ∧
        (getState j squared_j sq size s).j_minus r c =
          s.j_minus r c +
            (getState j squared_j sq size
              (initState s.eigenfunctions)).j_minus r c := by
  constructor
  · intro r hr
    constructor <;>
      (simp only [getState_j_z, getState_j_plus, initState];
        split_ifs <;> first | (exfalso; omega) | simp)
  · intro r c hrc hc
    refine ⟨?_, ?_, ?_⟩ <;>
      (simp only [getState_j_z, getState_j_plus, getState_j_minus, initState];
        split_ifs <;> first | (exfalso; omega) | simp)

/-- C8 witness: additivity at the diagonal cell `(0, 0)` for `size = 2`
with identity eigenfunctions and output matrices initialized to `5`. -/
theorem claim_C8_witness :
    ((0 : ℕ) < 2) ∧
      (getState (1 / 2 : ℚ) (3 / 4) (fun x => x) 2
          { eigenfunctions := idMatrix, j_z := fun _ _ => 5,
            j_plus := fun _ _ => 5, j_minus := fun _ _ => 5,
            transition_probability := fun _ _ => 5 }).j_z 0 0 =
        5 + (getState (1 / 2 : ℚ) (3 / 4) (fun x => x) 2
          (initState idMatrix)).j_z 0 0 :=
  ⟨by decide,
    ((claim_C8 (1 / 2) (3 / 4) (fun x => x) 2
      { eigenfunctions := idMatrix, j_z := fun _ _ => 5,
        j_plus := fun _ _ => 5, j_minus := fun _ _ => 5,
        transition_probability := fun _ _ => 5 }).1 0 (by decide)).1⟩

/-- C9: the call is a deterministic pure computation — it never changes the
`eigenfunctions` matrix, and two calls on identical inputs produce
identical final states and return values. -/
theorem claim_C9 (j squared_j : ℚ) (sq : ℚ → ℚ) (size : ℕ) (s s' : CState)
    (h : s = s') :
    (getState j squared_j sq size s).eigenfunctions = s.eigenfunctions ∧
      getState j squared_j sq size s = getState j squared_j sq size s' ∧
      get j squared_j sq size s = get j squared_j sq size s' := by
  subst h
  exact ⟨getState_eigenfunctions j squared_j sq size s, rfl, rfl⟩

/-- C9 witness: eigenfunctions preservation and determinism at a concrete
input. -/
theorem claim_C9_witness :
    (getState (1 / 2 : ℚ) (3 / 4) (fun x => x) 2
        (initState idMatrix)).eigenfunctions 0 0 = idMatrix 0 0 :=
  congrFun (congrFun
    (claim_C9 (1 / 2) (3 / 4) (fun x => x) 2 (initState idMatrix)
      (initState idMatrix) rfl).1 0) 0

/-- Value of the accumulated diagonal `j_z` sum in the identity eigenbasis:
exactly `i − j` for an in-range eigenstate `i`. -/
theorem diagJzSum_idMatrix (i : ℕ) (hi : i < size) :
    diagJzSum j size idMatrix i = (i : ℚ) - j := by
  have hterm : ∀ k : ℕ, idMatrix k i ^ 2 * ((k : ℚ) - j)
      = if k = i then (k : ℚ) - j else 0 := by
    intro k
    by_cases h : k = i <;> simp [idMatrix, h]
  simp only [diagJzSum, hterm]
  rw [Finset.sum_ite_eq' (Finset.range (size - 1)) i fun k => (k : ℚ) - j]
  by_cases h : i < size - 1
  · have h1 : ¬ size - 1 = i := by omega
    simp [idMatrix, h1, Finset.mem_range, h]
  · have h1 : size - 1 = i := by omega
    simp [idMatrix, h1, Finset.mem_range, h]

/-- The accumulated off-diagonal `j_z` sum vanishes in the identity
eigenbasis for distinct eigenstates. -/
theorem offJzSum_idMatrix (r c : ℕ) (hrc : r ≠ c) :
    offJzSum j size idMatrix r c = 0 := by
  have hterm : ∀ k : ℕ, idMatrix k r * idMatrix k c * ((k : ℚ) - j) = 0 := by
    intro k
    by_cases h1 : k = r
    · subst h1
      simp [idMatrix, hrc]
    · simp [idMatrix, h1]
  simp only [offJzSum, hterm, Finset.sum_const_zero, add_zero]

/-- C4: with identity eigenfunctions and zero-initialized outputs, `j_z` is
diagonal with `j_z[i][i] = i − j` exactly for every `i < size`, and every
off-diagonal `j_z` entry is zero. -/
theorem claim_C4 (hsize : 1 ≤ size) :
    (∀ i, i < size →
      (getState j squared_j sq size (initState idMatrix)).j_z i i
        = (i : ℚ) - j) ∧
    ∀ r c, r ≠ c →
      (getState j squared_j sq size (initState idMatrix)).j_z r c = 0 := by
  constructor
  · intro i hi
    rw [getState_j_z]
    simp [initState, hi, diagJzSum_idMatrix j size i hi]
  · intro r c hrc
    rw [getState_j_z]
    split_ifs <;>
      first
      | (exfalso; omega)
      | simp [initState, offJzSum_idMatrix j size r c hrc,
          offJzSum_idMatrix j size c r (Ne.symm hrc)]

/-- C4 witness: the identity-eigenbasis theorem at `size = 2`, `j = 1/2`. -/
theorem claim_C4_witness :
    (1 ≤ 2) ∧
      (getState (1 / 2 : ℚ) (3 / 4) (fun x => x) 2 (initState idMatrix)).j_z 0 0
        = ((0 : ℕ) : ℚ) - 1 / 2 ∧
      (getState (1 / 2 : ℚ) (3 / 4) (fun x => x) 2 (initState idMatrix)).j_z 0 1
        = 0 :=
  ⟨by decide,
    (claim_C4 (1 / 2) (3 / 4) (fun x => x) 2 (by decide)).1 0 (by decide),
    (claim_C4 (1 / 2) (3 / 4) (fun x => x) 2 (by decide)).2 0 1 (by decide)⟩

/-- C3 counterexample: for `J = 1/2` (`size = 2`, `squared_j = 3/4`) with
identity eigenfunctions and zero-initialized outputs, the code leaves
`j_plus[0][1] = 0` (not 1), so the claimed values are false; in fact
`transition_probability[0][1] = 1/3`, not `2/3`. -/
theorem claim_C3_counterexample :
    ¬((getState (1 / 2 : ℚ) (3 / 4) (fun x => x) 2
          (initState idMatrix)).j_plus 0 1 = 1 ∧
      (getState (1 / 2 : ℚ) (3 / 4) (fun x => x) 2
          (initState idMatrix)).j_minus 1 0 = 1 ∧
      (getState (1 / 2 : ℚ) (3 / 4) (fun x => x) 2
          (initState idMatrix)).transition_probability 0 1 = 2 / 3) := by
  have h1 : (getState (1 / 2 : ℚ) (3 / 4) (fun x => x) 2
      (initState idMatrix)).j_plus 0 1 = 0 := by
    norm_num [getState_j_plus, initState, idMatrix, offJpSum,
      Finset.sum_range_one]
  intro h
  rw [h.1] at h1
  norm_num at h1

/-- C3 amended: for `J = 1/2` (`size = 2`, `j = 1/2`, `squared_j = 3/4`)
with identity eigenfunctions, zero-initialized outputs and any square-root
function with `sq 1 = 1` (as the real square root has), the call yields
`J_z = diag(−1/2, 1/2)` with zero off-diagonal entries,
`j_plus[0][1] = 0`, `j_minus[0][1] = 1` (hence `j_plus[1][0] = 1` and
`j_minus[1][0] = 0`), and
`transition_probability[0][1] = transition_probability[1][0] = 1/3`. -/
theorem claim_C3 (sq : ℚ → ℚ) (hsq : sq 1 = 1) :
    (getState (1 / 2 : ℚ) (3 / 4) sq 2 (initState idMatrix)).j_z 0 0
        = -(1 / 2) ∧
      (getState (1 / 2 : ℚ) (3 / 4) sq 2 (initState idMatrix)).j_z 1 1
        = 1 / 2 ∧
      (getState (1 / 2 : ℚ) (3 / 4) sq 2 (initState idMatrix)).j_z 0 1 = 0 ∧
      (getState (1 / 2 : ℚ) (3 / 4) sq 2 (initState idMatrix)).j_z 1 0 = 0 ∧
      (getState (1 / 2 : ℚ) (3 / 4) sq 2 (initState idMatrix)).j_plus 0 1
        = 0 ∧
      (getState (1 / 2 : ℚ) (3 / 4) sq 2 (initState idMatrix)).j_minus 0 1
        = 1 ∧
      (getState (1 / 2 : ℚ) (3 / 4) sq 2 (initState idMatrix)).j_plus 1 0
        = 1 ∧
      (getState (1 / 2 : ℚ) (3 / 4) sq 2 (initState idMatrix)).j_minus 1 0
        = 0 ∧
      (getState (1 / 2 : ℚ) (3 / 4) sq 2
          (initState idMatrix)).transition_probability 0 1 = 1 / 3 ∧
      (getState (1 / 2 : ℚ) (3 / 4) sq 2
          (initState idMatrix)).transition_probability 1 0 = 1 / 3 := by
  refine ⟨?_, ?_, ?_, ?_, ?_, ?_, ?_, ?_, ?_, ?_⟩ <;>
    norm_num [getState_j_z, getState_j_plus, getState_j_minus, getState_tp,
      initState, idMatrix, diagJzSum, diagJpSum, offJzSum, offJpSum, offJmSum,
      tpVal, Finset.sum_range_one, hsq]

/-- C3 witness: the amended small case instantiated with the identity as
square-root model, for which `sq 1 = 1` holds definitionally. -/
theorem claim_C3_witness :
    ((fun x : ℚ => x) 1 = 1) ∧
      ((getState (1 / 2 : ℚ) (3 / 4) (fun x : ℚ => x) 2
            (initState idMatrix)).j_z 0 0 = -(1 / 2) ∧
        (getState (1 / 2 : ℚ) (3 / 4) (fun x : ℚ => x) 2
            (initState idMatrix)).j_z 1 1 = 1 / 2 ∧
        (getState (1 / 2 : ℚ) (3 / 4) (fun x : ℚ => x) 2
            (initState idMatrix)).j_z 0 1 = 0 ∧
        (getState (1 / 2 : ℚ) (3 / 4) (fun x : ℚ => x) 2
            (initState idMatrix)).j_z 1 0 = 0 ∧
        (getState (1 / 2 : ℚ) (3 / 4) (fun x : ℚ => x) 2
            (initState idMatrix)).j_plus 0 1 = 0 ∧
        (getState (1 / 2 : ℚ) (3 / 4) (fun x : ℚ => x) 2
            (initState idMatrix)).j_minus 0 1 = 1 ∧
        (getState (1 / 2 : ℚ) (3 / 4) (fun x : ℚ => x) 2
            (initState idMatrix)).j_plus 1 0 = 1 ∧
        (getState (1 / 2 : ℚ) (3 / 4) (fun x : ℚ => x) 2
            (initState idMatrix)).j_minus 1 0 = 0 ∧
        (getState (1 / 2 : ℚ) (3 / 4) (fun x : ℚ => x) 2
            (initState idMatrix)).transition_probability 0 1 = 1 / 3 ∧
        (getState (1 / 2 : ℚ) (3 / 4) (fun x : ℚ => x) 2
            (initState idMatrix)).transition_probability 1 0 = 1 / 3) :=
  ⟨rfl, claim_C3 (fun x => x) rfl⟩

/-- The accumulated diagonal `j_z` sum reads the eigenvector matrix only at
indices below `size`. -/
theorem diagJzSum_congr (ef ef' : ℕ → ℕ → ℚ) (a : ℕ) (ha : a < size)
    (h : ∀ i r, i < size → r < size → ef i r = ef' i r) :
    diagJzSum j size ef a = diagJzSum j size ef' a := by
  simp only [diagJzSum]
  rw [h (size - 1) a (by omega) ha]
  congr 1
  refine Finset.sum_congr rfl fun k hk => ?_
  rw [h k a (by have := Finset.mem_range.mp hk; omega) ha]

/-- The accumulated diagonal `j_plus` sum reads the eigenvector matrix only
at indices below `size` (the loop index stops at `size − 2`, so `i + 1`
stays below `size`). -/
theorem diagJpSum_congr (ef ef' : ℕ → ℕ → ℚ) (a : ℕ) (ha : a < size)
    (h : ∀ i r, i < size → r < size → ef i r = ef' i r) :
    diagJpSum j squared_j sq size ef a = diagJpSum j squared_j sq size ef' a := by
  simp only [diagJpSum]
  refine Finset.sum_congr rfl fun k hk => ?_
  have hk' := Finset.mem_range.mp hk
  rw [h (k + 1) a (by omega) ha, h k a (by omega) ha]

/-- The accumulated off-diagonal `j_z` sum reads the eigenvector matrix only
at indices below `size`. -/
theorem offJzSum_congr (ef ef' : ℕ → ℕ → ℚ) (r c : ℕ) (hr : r < size)
    (hc : c < size) (h : ∀ i a, i < size → a < size → ef i a = ef' i a) :
    offJzSum j size ef r c = offJzSum j size ef' r c := by
  simp only [offJzSum]
  rw [h (size - 1) r (by omega) hr, h (size - 1) c (by omega) hc]
  congr 1
  refine Finset.sum_congr rfl fun k hk => ?_
  have hk' := Finset.mem_range.mp hk
  rw [h k r (by omega) hr, h k c (by omega) hc]

/-- The accumulated off-diagonal `j_plus` sum reads the eigenvector matrix
only at indices below `size` (index `i + 1` stays below `size`). -/
theorem offJpSum_congr (ef ef' : ℕ → ℕ → ℚ) (r c : ℕ) (hr : r < size)
    (hc : c < size) (h : ∀ i a, i < size → a < size → ef i a = ef' i a) :
    offJpSum j squared_j sq size ef r c = offJpSum j squared_j sq size ef' r c := by
  simp only [offJpSum]
  refine Finset.sum_congr rfl fun k hk => ?_
  have hk' := Finset.mem_range.mp hk
  rw [h (k + 1) r (by omega) hr, h k c (by omega) hc]

/-- The accumulated off-diagonal `j_minus` sum reads the eigenvector matrix
only at indices below `size` (index `i + 1` stays below `size`). -/
theorem offJmSum_congr (ef ef' : ℕ → ℕ → ℚ) (r c : ℕ) (hr : r < size)
    (hc : c < size) (h : ∀ i a, i < size → a < size → ef i a = ef' i a) :
    offJmSum j squared_j sq size ef r c = offJmSum j squared_j sq size ef' r c := by
  simp only [offJmSum]
  refine Finset.sum_congr rfl fun k hk => ?_
  have hk' := Finset.mem_range.mp hk
  rw [h k r (by omega) hr, h (k + 1) c (by omega) hc]

/-- C5: bounds safety, expressed extensionally — (i) output cells outside
the `size × size` square are never written; (ii) the outputs depend only on
eigenvector entries inside the square (all reads, including at the inner
loop index `i + 1`, stay below `size`); (iii) for `size = 1` with `j = 0`
all four outputs are the single zero entry. -/
theorem claim_C5 :
    (∀ (j squared_j : ℚ) (sq : ℚ → ℚ) (size : ℕ) (s : CState) (a b : ℕ),
      size ≤ a ∨ size ≤ b →
      (getState j squared_j sq size s).j_z a b = s.j_z a b ∧
      (getState j squared_j sq size s).j_plus a b = s.j_plus a b ∧
      (getState j squared_j sq size s).j_minus a b = s.j_minus a b ∧
      (getState j squared_j sq size s).transition_probability a b
        = s.transition_probability a b) ∧
    (∀ (j squared_j : ℚ) (sq : ℚ → ℚ) (size : ℕ) (ef ef' : ℕ → ℕ → ℚ),
      (∀ i r, i < size → r < size → ef i r = ef' i r) →
      ∀ a b,
        (getState j squared_j sq size (initState ef)).j_z a b =
          (getState j squared_j sq size (initState ef')).j_z a b ∧
        (getState j squared_j sq size (initState ef)).j_plus a b =
          (getState j squared_j sq size (initState ef')).j_plus a b ∧
        (getState j squared_j sq size (initState ef)).j_minus a b =
          (getState j squared_j sq size (initState ef')).j_minus a b ∧
        (getState j squared_j sq size (initState ef)).transition_probability a b
          = (getState j squared_j sq size
              (initState ef')).transition_probability a b) ∧
    (∀ (squared_j : ℚ) (sq : ℚ → ℚ) (ef : ℕ → ℕ → ℚ) (r c : ℕ),
      (getState 0 squared_j sq 1 (initState ef)).j_z r c = 0 ∧
      (getState 0 squared_j sq 1 (initState ef)).j_plus r c = 0 ∧
      (getState 0 squared_j sq 1 (initState ef)).j_minus r c = 0 ∧
      (getState 0 squared_j sq 1 (initState ef)).transition_probability r c
        = 0) := by
  refine ⟨?_, ?_, ?_⟩
  · intro j squared_j sq size s a b hab
    refine ⟨?_, ?_, ?_, ?_⟩
    · rw [getState_j_z]; split_ifs <;> first | rfl | (exfalso; omega)
    · rw [getState_j_plus]; split_ifs <;> first | rfl | (exfalso; omega)
    · rw [getState_j_minus]; split_ifs <;> first | rfl | (exfalso; omega)
    · rw [getState_tp]; split_ifs <;> first | rfl | (exfalso; omega)
  · intro j squared_j sq size ef ef' h a b
    refine ⟨?_, ?_, ?_, ?_⟩
    · simp only [getState_j_z, initState]
      split_ifs with h1 h2 h3
      · rw [diagJzSum_congr j size ef ef' a h1.2 h]
      · rw [offJzSum_congr j size ef ef' a b (by omega) h2.2 h]
      · rw [offJzSum_congr j size ef ef' b a (by omega) h3.2 h]
      · rfl
    · simp only [getState_j_plus, initState]
      split_ifs with h1 h2 h3
      · rw [diagJpSum_congr j squared_j sq size ef ef' a h1.2 h]
      · rw [offJpSum_congr j squared_j sq size ef ef' a b (by omega) h2.2 h]
      · rw [offJmSum_congr j squared_j sq size ef ef' b a (by omega) h3.2 h]
      · rfl
    · simp only [getState_j_minus, initState]
      split_ifs with h1 h2 h3
      · rw [diagJpSum_congr j squared_j sq size ef ef' a h1.2 h]
      · rw [offJmSum_congr j squared_j sq size ef ef' a b (by omega) h2.2 h]
      · rw [offJpSum_congr j squared_j sq size ef ef' b a (by omega) h3.2 h]
      · rfl
    · simp only [getState_tp, tpVal, initState]
      split_ifs with h1 h2
      · rw [offJzSum_congr j size ef ef' a b (by omega) h1.2 h,
          offJpSum_congr j squared_j sq size ef ef' a b (by omega) h1.2 h,
          offJmSum_congr j squared_j sq size ef ef' a b (by omega) h1.2 h]
      · rw [offJzSum_congr j size ef ef' b a (by omega) h2.2 h,
          offJpSum_congr j squared_j sq size ef ef' b a (by omega) h2.2 h,
          offJmSum_congr j squared_j sq size ef ef' b a (by omega) h2.2 h]
      · rfl
  · intro squared_j sq ef r c
    refine ⟨?_, ?_, ?_, ?_⟩ <;>
      (first
        | rw [getState_j_z]
        | rw [getState_j_plus]
        | rw [getState_j_minus]
        | rw [getState_tp]) <;>
      split_ifs <;>
      first
      | (exfalso; omega)
      | norm_num [initState, diagJzSum, diagJpSum, tpVal]

/-- C5 witness: an out-of-range cell is untouched, and the `size = 1` run
leaves the single entry zero. -/
theorem claim_C5_witness :
    ((2 : ℕ) ≤ 5 ∨ (2 : ℕ) ≤ 7) ∧
      (getState (1 / 2 : ℚ) (3 / 4) (fun x => x) 2
          (initState idMatrix)).j_z 5 7 = (initState idMatrix).j_z 5 7 ∧
      (getState (0 : ℚ) 0 (fun x => x) 1 (initState idMatrix)).j_z 0 0 = 0 :=
  ⟨Or.inl (by decide),
    (claim_C5.1 (1 / 2) (3 / 4) (fun x => x) 2 (initState idMatrix) 5 7
      (Or.inl (by decide))).1,
    (claim_C5.2.2 0 (fun x => x) idMatrix 0 0).1⟩

/-- One eigenvector-column negation as a signed factor. -/
theorem flipCol_mul (ef : ℕ → ℕ → ℚ) (k i r : ℕ) :
    flipCol ef k i r = (if r = k then (-1 : ℚ) else 1) * ef i r := by
  by_cases h : r = k <;> simp [flipCol, h]

/-- Diagonal `j_z` sums are invariant under negating one eigenvector
column (the entries enter squared). -/
theorem diagJzSum_flipCol (ef : ℕ → ℕ → ℚ) (k a : ℕ) :
    diagJzSum j size (flipCol ef k) a = diagJzSum j size ef a := by
  simp only [diagJzSum, flipCol]
  by_cases h : a = k <;> simp [h]

/-- Diagonal `j_plus` sums are invariant under negating one eigenvector
column (each term is a product of two entries of the same column). -/
theorem diagJpSum_flipCol (ef : ℕ → ℕ → ℚ) (k a : ℕ) :
    diagJpSum j squared_j sq size (flipCol ef k) a
      = diagJpSum j squared_j sq size ef a := by
  simp only [diagJpSum, flipCol]
  by_cases h : a = k <;> simp [h, neg_mul_neg]

/-- Off-diagonal `j_z` sums scale by the product of the two column signs
under negating one eigenvector column. -/
theorem offJzSum_flipCol (ef : ℕ → ℕ → ℚ) (k r c : ℕ) :
    offJzSum j size (flipCol ef k) r c =
      ((if r = k then (-1 : ℚ) else 1) * (if c = k then (-1 : ℚ) else 1)) *
        offJzSum j size ef r c := by
  simp only [offJzSum, flipCol_mul]
  rw [mul_add, Finset.mul_sum]
  congr 1
  · ring
  · exact Finset.sum_congr rfl fun i _ => by ring

/-- Off-diagonal `j_plus` sums scale by the product of the two column signs
under negating one eigenvector column. -/
theorem offJpSum_flipCol (ef : ℕ → ℕ → ℚ) (k r c : ℕ) :
    offJpSum j squared_j sq size (flipCol ef k) r c =
      ((if r = k then (-1 : ℚ) else 1) * (if c = k then (-1 : ℚ) else 1)) *
        offJpSum j squared_j sq size ef r c := by
  simp only [offJpSum, flipCol_mul]
  rw [Finset.mul_sum]
  exact Finset.sum_congr rfl fun i _ => by ring

/-- Off-diagonal `j_minus` sums scale by the product of the two column
signs under negating one eigenvector column. -/
theorem offJmSum_flipCol (ef : ℕ → ℕ → ℚ) (k r c : ℕ) :
    offJmSum j squared_j sq size (flipCol ef k) r c =
      ((if r = k then (-1 : ℚ) else 1) * (if c = k then (-1 : ℚ) else 1)) *
        offJmSum j squared_j sq size ef r c := by
  simp only [offJmSum, flipCol_mul]
  rw [Finset.mul_sum]
  exact Finset.sum_congr rfl fun i _ => by ring

/-- C6: negating one eigenvector column `k` (with zero-initialized outputs)
leaves every diagonal entry of `j_z`, `j_plus`, `j_minus` and the whole
`transition_probability` matrix unchanged, and flips the sign of every
off-diagonal `j_z`, `j_plus`, `j_minus` entry whose row or column index is
`k`. -/
theorem claim_C6 (j squared_j : ℚ) (sq : ℚ → ℚ) (size : ℕ)
    (ef : ℕ → ℕ → ℚ) (k : ℕ) :
    (∀ r,
      (getState j squared_j sq size (initState (flipCol ef k))).j_z r r =
          (getState j squared_j sq size (initState ef)).j_z r r ∧
        (getState j squared_j sq size (initState (flipCol ef k))).j_plus r r =
          (getState j squared_j sq size (initState ef)).j_plus r r ∧
        (getState j squared_j sq size (initState (flipCol ef k))).j_minus r r =
          (getState j squared_j sq size (initState ef)).j_minus r r) ∧
    (∀ r c,
      (getState j squared_j sq size
          (initState (flipCol ef k))).transition_probability r c =
        (getState j squared_j sq size
          (initState ef)).transition_probability r c) ∧
    (∀ r c, r ≠ c → r = k ∨ c = k →
      (getState j squared_j sq size (initState (flipCol ef k))).j_z r c =
          -(getState j squared_j sq size (initState ef)).j_z r c ∧
        (getState j squared_j sq size (initState (flipCol ef k))).j_plus r c =
          -(getState j squared_j sq size (initState ef)).j_plus r c ∧
        (getState j squared_j sq size (initState (flipCol ef k))).j_minus r c =
          -(getState j squared_j sq size (initState ef)).j_minus r c) := by
  refine ⟨fun r => ⟨?_, ?_, ?_⟩, fun r c => ?_, fun r c hrc hk => ?_⟩
  · simp only [getState_j_z, initState, diagJzSum_flipCol j size ef k]
    split_ifs <;> first | rfl | (exfalso; omega)
  · simp only [getState_j_plus, initState,
      diagJpSum_flipCol j squared_j sq size ef k]
    split_ifs <;> first | rfl | (exfalso; omega)
  · simp only [getState_j_minus, initState,
      diagJpSum_flipCol j squared_j sq size ef k]
    split_ifs <;> first | rfl | (exfalso; omega)
  · simp only [getState_tp, tpVal, initState, offJzSum_flipCol j size ef k,
      offJpSum_flipCol j squared_j sq size ef k,
      offJmSum_flipCol j squared_j sq size ef k]
    split_ifs <;>
      first
      | rfl
      | (by_cases hr : r = k <;> by_cases hc : c = k <;>
          simp [hr, hc] <;> ring)
  · have hS : ((if r = k then (-1 : ℚ) else 1) *
        (if c = k then (-1 : ℚ) else 1)) = -1 := by
      obtain hk | hk := hk
      · have hc : ¬ c = k := by omega
        simp [hk, hc]
      · have hr : ¬ r = k := by omega
        simp [hk, hr]
    have hS2 : ((if c = k then (-1 : ℚ) else 1) *
        (if r = k then (-1 : ℚ) else 1)) = -1 := by
      rw [mul_comm]; exact hS
    refine ⟨?_, ?_, ?_⟩
    · simp only [getState_j_z, initState, offJzSum_flipCol j size ef k]
      split_ifs <;>
        first
        | (exfalso; omega)
        | (rw [hS]; ring)
        | (rw [hS2]; ring)
        | norm_num
    · simp only [getState_j_plus, initState,
        offJpSum_flipCol j squared_j sq size ef k,
        offJmSum_flipCol j squared_j sq size ef k]
      split_ifs <;>
        first
        | (exfalso; omega)
        | (rw [hS]; ring)
        | (rw [hS2]; ring)
        | norm_num
    · simp only [getState_j_minus, initState,
        offJpSum_flipCol j squared_j sq size ef k,
        offJmSum_flipCol j squared_j sq size ef k]
      split_ifs <;>
        first
        | (exfalso; omega)
        | (rw [hS]; ring)
        | (rw [hS2]; ring)
        | norm_num

/-- C6 witness: the sign-flip theorem at `size = 2`, `k = 0`, identity
eigenfunctions: `j_minus[0][1]` flips sign and the transition probability
is unchanged. -/
theorem claim_C6_witness :
    (getState (1 / 2 : ℚ) (3 / 4) (fun x => x) 2
        (initState (flipCol idMatrix 0))).j_minus 0 1 =
      -(getState (1 / 2 : ℚ) (3 / 4) (fun x => x) 2
        (initState idMatrix)).j_minus 0 1 ∧
    (getState (1 / 2 : ℚ) (3 / 4) (fun x => x) 2
        (initState (flipCol idMatrix 0))).transition_probability 0 1 =
      (getState (1 / 2 : ℚ) (3 / 4) (fun x => x) 2
        (initState idMatrix)).transition_probability 0 1 :=
  ⟨((claim_C6 (1 / 2) (3 / 4) (fun x => x) 2 idMatrix 0).2.2 0 1 (by decide)
      (Or.inl rfl)).2.2,
    (claim_C6 (1 / 2) (3 / 4) (fun x => x) 2 idMatrix 0).2.1 0 1⟩

/-- C10: the returned scalar is the head of the local four-element array,
i.e. exactly the final `j_z[0][0]`; the other three aggregated values do
not influence it. -/
theorem claim_C10 (j squared_j : ℚ) (sq : ℚ → ℚ) (size : ℕ) (s : CState) :
    (get j squared_j sq size s).2 = (getState j squared_j sq size s).j_z 0 0 :=
  rfl

end TransitionProbabilities
